import Mathlib

/-!
Verification of the `index_ref` repository: a growable byte buffer
(`IndexRefBuf`) that supports stable logical index references.  The
definitions below are a shallow embedding of `src/lib.rs`: byte vectors
(`Vec<u8>`) become `List Nat` (the code never performs arithmetic on the
byte values themselves, only stores and compares them), `usize` positions
become `Nat`, and operations that may panic in Rust return `Option`.
-/

/-- Embedding of `std::ops::Bound<usize>` as used by the generic range
argument of `IndexRefBuf::splice`. -/
inductive RBound where
  | included : Nat → RBound
  | excluded : Nat → RBound
  | unbounded : RBound
deriving DecidableEq, Repr

/-- Resolution of the start bound of a range, as in `splice`
(`lib.rs` lines 75-79). -/
def RBound.startIndex : RBound → Nat
  | .included x => x
  | .excluded x => x + 1
  | .unbounded => 0

/-- Resolution of the end bound of a range, as in `splice`
(`lib.rs` lines 80-84); `len` is the current buffer length. -/
def RBound.endIndex (len : Nat) : RBound → Nat
  | .included x => x + 1
  | .excluded x => x
  | .unbounded => len

/-- Embedding of the struct `IndexRefBuf { buf: Vec<u8>, references: Vec<usize> }`. -/
structure IndexRefBuf where
  buf : List Nat
  references : List Nat
deriving DecidableEq, Repr

/-- Embedding of the struct `IndexRef { ref_index: usize }`. -/
structure IndexRef where
  ref_index : Nat
deriving DecidableEq, Repr

namespace IndexRefBuf

/-- `IndexRefBuf::new`: a new empty buffer. -/
def new : IndexRefBuf := { buf := [], references := [] }

/-- `IndexRefBuf::from_vec`: a buffer with the given content and no references. -/
def from_vec (vec : List Nat) : IndexRefBuf := { buf := vec, references := [] }

/-- `IndexRefBuf::create_index_ref`: appends `index` to the reference table and
returns a handle wrapping the new slot index, together with the updated buffer
(the Rust method mutates `self`; state passing is explicit here). -/
def create_index_ref (b : IndexRefBuf) (index : Nat) : IndexRef × IndexRefBuf :=
  let ref_index := b.references.length
  (⟨ref_index⟩, { b with references := b.references ++ [index] })

/-- `IndexRefBuf::read_index_ref`: `self.references[index_ref.ref_index]`.
Rust indexing panics when the slot is out of bounds, hence `Option`. -/
def read_index_ref (b : IndexRefBuf) (index_ref : IndexRef) : Option Nat :=
  b.references[index_ref.ref_index]?

/-- `IndexRefBuf::push`: `self.buf.push(value)`; the reference table is untouched. -/
def push (b : IndexRefBuf) (value : Nat) : IndexRefBuf :=
  { b with buf := b.buf ++ [value] }

/-- `IndexRefBuf::extend_from_slice`: `self.buf.extend_from_slice(other)`. -/
def extend_from_slice (b : IndexRefBuf) (other : List Nat) : IndexRefBuf :=
  { b with buf := b.buf ++ other }

/-- `IndexRefBuf::append`: `self.buf.append(other)`; Rust moves all elements out
of `other`, leaving it empty, so the emptied vector is returned alongside. -/
def append (b : IndexRefBuf) (other : List Nat) : IndexRefBuf × List Nat :=
  ({ b with buf := b.buf ++ other }, [])

/-- `IndexRefBuf::insert`: `self.buf.insert(index, element)` (panics when
`index > len`, hence `none`), then every stored reference `>= index` is
incremented by one. -/
def insert (b : IndexRefBuf) (index : Nat) (element : Nat) : Option IndexRefBuf :=
  if index ≤ b.buf.length then
    some { buf := b.buf.take index ++ element :: b.buf.drop index,
           references := b.references.map (fun r => if r ≥ index then r + 1 else r) }
  else none

/-- `IndexRefBuf::insert_slice`: `self.buf.splice(index..index, elements)`
(panics when `index > len`), then every stored reference `>= index` is
increased by `elements.len()`. -/
def insert_slice (b : IndexRefBuf) (index : Nat) (elements : List Nat) :
    Option IndexRefBuf :=
  if index ≤ b.buf.length then
    some { buf := b.buf.take index ++ elements ++ b.buf.drop index,
           references := b.references.map
             (fun r => if r ≥ index then r + elements.length else r) }
  else none

/-- `IndexRefBuf::splice`: replaces the sub-range of `buf` denoted by the range
with `replace_with` and returns the removed bytes.  Mirrors the source order of
effects: `Vec::splice` first panics when the resolved range is malformed or out
of bounds; then `checked_sub(range_len).expect(..)` panics when the replacement
is shorter than the replaced range; references `>= range_end_index` are shifted
by the size increase only when that increase is positive. -/
def splice (b : IndexRefBuf) (sb eb : RBound) (replace_with : List Nat) :
    Option (IndexRefBuf × List Nat) :=
  let range_start_index := sb.startIndex
  let range_end_index := eb.endIndex b.buf.length
  if range_start_index ≤ range_end_index ∧ range_end_index ≤ b.buf.length then
    let range_len := range_end_index - range_start_index
    if range_len ≤ replace_with.length then
      let increase_in_size := replace_with.length - range_len
      some
        ({ buf := b.buf.take range_start_index ++ replace_with ++
                  b.buf.drop range_end_index,
           references :=
             if 0 < increase_in_size then
               b.references.map
                 (fun r => if r ≥ range_end_index then r + increase_in_size else r)
             else b.references },
         (b.buf.drop range_start_index).take range_len)
    else none
  else none

/-- `IndexRefBuf::len`. -/
def len (b : IndexRefBuf) : Nat := b.buf.length

/-- `IndexRefBuf::is_empty`. -/
def is_empty (b : IndexRefBuf) : Bool := b.buf.isEmpty

end IndexRefBuf

/-! Generic lemmas about lists of the shape `l.take s ++ mid ++ l.drop e`,
which is the content produced by `insert`, `insert_slice` and `splice`. -/

theorem getElem?_splice_shape_left (l mid : List Nat) (s e j : Nat)
    (hj : j < s) (hs : s ≤ l.length) :
    (l.take s ++ mid ++ l.drop e)[j]? = l[j]? := by
  rw [List.append_assoc, List.getElem?_append, List.length_take_of_le hs,
    if_pos hj, List.getElem?_take, if_pos hj]

theorem getElem?_splice_shape_right (l mid : List Nat) (s e j : Nat)
    (hs : s ≤ l.length) (hj : e ≤ j) :
    (l.take s ++ mid ++ l.drop e)[s + mid.length + (j - e)]? = l[j]? := by
  rw [List.append_assoc, List.getElem?_append, List.length_take_of_le hs]
  rw [if_neg (by omega)]
  have h1 : s + mid.length + (j - e) - s = mid.length + (j - e) := by omega
  rw [h1, List.getElem?_append_right (by omega)]
  have h2 : mid.length + (j - e) - mid.length = j - e := by omega
  rw [h2, List.getElem?_drop]
  congr 1
  omega

theorem getElem?_splice_shape_mid (l mid : List Nat) (s e j : Nat)
    (hs : s ≤ l.length) (hj : j < mid.length) :
    (l.take s ++ mid ++ l.drop e)[s + j]? = mid[j]? := by
  rw [List.append_assoc, List.getElem?_append, List.length_take_of_le hs,
    if_neg (by omega)]
  have h1 : s + j - s = j := by omega
  rw [h1, List.getElem?_append, if_pos hj]

theorem length_splice_shape (l mid : List Nat) (s e : Nat)
    (hs : s ≤ l.length) (hse : s ≤ e) (he : e ≤ l.length) :
    (l.take s ++ mid ++ l.drop e).length = l.length + mid.length - (e - s) := by
  simp only [List.length_append, List.length_take, List.length_drop]
  omega

namespace IndexRefBuf

/-- C4 — `insert(index, value)` with `0 ≤ index ≤ len` succeeds, grows the
content by exactly one byte, places the value at `index`, shifts all bytes
previously at or after `index` one position later, rewrites every stored
position `p ≥ index` (including `p = index`, `index = 0`, `index = len`) to
`p + 1` and leaves every `p < index` unchanged; consequently a handle
resolving to `index` resolves to `index + 1` afterwards. -/
theorem insert_spec (b : IndexRefBuf) (index element : Nat)
    (h : index ≤ b.buf.length) :
    ∃ b', b.insert index element = some b' ∧
      b'.buf.length = b.buf.length + 1 ∧
      b'.buf[index]? = some element ∧
      (∀ j, j < index → b'.buf[j]? = b.buf[j]?) ∧
      (∀ j, index ≤ j → b'.buf[j + 1]? = b.buf[j]?) ∧
      b'.references = b.references.map (fun p => if p ≥ index then p + 1 else p) ∧
      (∀ r : IndexRef, b.read_index_ref r = some index →
        b'.read_index_ref r = some (index + 1)) := by
  have hb' : b.insert index element =
      some ⟨b.buf.take index ++ element :: b.buf.drop index,
            b.references.map (fun r => if r ≥ index then r + 1 else r)⟩ := by
    rw [insert, if_pos h]
  have hcons : b.buf.take index ++ element :: b.buf.drop index =
      b.buf.take index ++ [element] ++ b.buf.drop index := by
    rw [List.append_assoc, List.singleton_append]
  refine ⟨_, hb', ?_, ?_, ?_, ?_, rfl, ?_⟩
  · show (b.buf.take index ++ element :: b.buf.drop index).length = _
    simp only [List.length_append, List.length_take, List.length_cons,
      List.length_drop]
    omega
  · show (b.buf.take index ++ element :: b.buf.drop index)[index]? = _
    rw [hcons]
    have := getElem?_splice_shape_mid b.buf [element] index index 0 h (by simp)
    simpa using this
  · intro j hj
    show (b.buf.take index ++ element :: b.buf.drop index)[j]? = _
    rw [hcons]
    exact getElem?_splice_shape_left b.buf [element] index index j hj h
  · intro j hj
    show (b.buf.take index ++ element :: b.buf.drop index)[j + 1]? = _
    rw [hcons]
    have := getElem?_splice_shape_right b.buf [element] index index j h hj
    have harith : index + [element].length + (j - index) = j + 1 := by
      simp only [List.length_cons, List.length_nil]
      omega
    rwa [harith] at this
  · intro r hr
    show (b.references.map fun p => if p ≥ index then p + 1 else p)[r.ref_index]? = _
    rw [List.getElem?_map]
    simp only [read_index_ref] at hr
    rw [hr]
    simp

end IndexRefBuf

/-- Shifting by zero is the identity on a reference table. -/
theorem map_shift_zero (l : List Nat) (e : Nat) :
    l.map (fun r => if r ≥ e then r + 0 else r) = l := by
  have hc : ∀ a ∈ l, (if a ≥ e then a + 0 else a) = (fun x : Nat => x) a := by
    intro a _
    by_cases hae : a ≥ e
    · rw [if_pos hae]
      rfl
    · rw [if_neg hae]
  rw [List.map_congr_left hc, List.map_id']

/-- The conditional adjustment in `splice` (skipping the scan when the size
increase is zero) equals the unconditional shift map. -/
theorem splice_refs_eq (refs : List Nat) (e inc : Nat) :
    (if 0 < inc then refs.map (fun r => if r ≥ e then r + inc else r)
     else refs) = refs.map (fun r => if r ≥ e then r + inc else r) := by
  by_cases hinc : 0 < inc
  · rw [if_pos hinc]
  · rw [if_neg hinc]
    have hz : inc = 0 := by omega
    subst hz
    exact (map_shift_zero refs e).symm

/-- Inversion for a successful `insert`. -/
theorem insert_some_inv (b : IndexRefBuf) (i v : Nat) (b' : IndexRefBuf)
    (h : b.insert i v = some b') :
    i ≤ b.buf.length ∧
    b'.buf = b.buf.take i ++ v :: b.buf.drop i ∧
    b'.references = b.references.map (fun r => if r ≥ i then r + 1 else r) := by
  rw [IndexRefBuf.insert] at h
  by_cases hi : i ≤ b.buf.length
  · rw [if_pos hi] at h
    injection h with h
    subst h
    exact ⟨hi, rfl, rfl⟩
  · rw [if_neg hi] at h
    exact absurd h (by simp)

/-- Inversion for a successful `insert_slice`. -/
theorem insert_slice_some_inv (b : IndexRefBuf) (i : Nat) (xs : List Nat)
    (b' : IndexRefBuf) (h : b.insert_slice i xs = some b') :
    i ≤ b.buf.length ∧
    b'.buf = b.buf.take i ++ xs ++ b.buf.drop i ∧
    b'.references = b.references.map
      (fun r => if r ≥ i then r + xs.length else r) := by
  rw [IndexRefBuf.insert_slice] at h
  by_cases hi : i ≤ b.buf.length
  · rw [if_pos hi] at h
    injection h with h
    subst h
    exact ⟨hi, rfl, rfl⟩
  · rw [if_neg hi] at h
    exact absurd h (by simp)

/-- Inversion for a successful `splice` (the conditional reference adjustment
is stated as the unconditional shift map). -/
theorem splice_some_inv (b : IndexRefBuf) (sb eb : RBound) (repl : List Nat)
    (b' : IndexRefBuf) (removed : List Nat)
    (h : b.splice sb eb repl = some (b', removed)) :
    sb.startIndex ≤ eb.endIndex b.buf.length ∧
    eb.endIndex b.buf.length ≤ b.buf.length ∧
    eb.endIndex b.buf.length - sb.startIndex ≤ repl.length ∧
    b'.buf = b.buf.take sb.startIndex ++ repl ++
      b.buf.drop (eb.endIndex b.buf.length) ∧
    b'.references = b.references.map (fun r =>
      if r ≥ eb.endIndex b.buf.length then
        r + (repl.length - (eb.endIndex b.buf.length - sb.startIndex))
      else r) := by
  rw [IndexRefBuf.splice] at h
  by_cases hb : sb.startIndex ≤ eb.endIndex b.buf.length ∧
      eb.endIndex b.buf.length ≤ b.buf.length
  · rw [if_pos hb] at h
    by_cases hl : eb.endIndex b.buf.length - sb.startIndex ≤ repl.length
    · rw [if_pos hl] at h
      simp only [Option.some.injEq, Prod.mk.injEq] at h
      obtain ⟨h1, h2⟩ := h
      refine ⟨hb.1, hb.2, hl, ?_, ?_⟩
      · rw [← h1]
      · rw [← h1]
        exact splice_refs_eq b.references (eb.endIndex b.buf.length)
          (repl.length - (eb.endIndex b.buf.length - sb.startIndex))
    · rw [if_neg hl] at h
      exact absurd h (by simp)
  · rw [if_neg hb] at h
    exact absurd h (by simp)

/-- C2 — calling `splice` with a replacement strictly shorter than the replaced
range (`new_len < range_len`) is fatal: it never returns a successful result
(the Rust code panics, either in `Vec::splice` on a malformed range or in
`checked_sub(..).expect(..)`; the embedding returns `none`). -/
theorem splice_shrink_fatal (b : IndexRefBuf) (sb eb : RBound)
    (replace_with : List Nat)
    (h : replace_with.length < eb.endIndex b.buf.length - sb.startIndex) :
    b.splice sb eb replace_with = none := by
  unfold IndexRefBuf.splice
  by_cases hb : sb.startIndex ≤ eb.endIndex b.buf.length ∧
      eb.endIndex b.buf.length ≤ b.buf.length
  · rw [if_pos hb, if_neg (by omega)]
  · rw [if_neg hb]

/-- C3 — for an in-bounds half-open range `[rstart, rend)` and a replacement at
least as long as the range, `splice` succeeds and rewrites every stored
position `p ≥ rend` to `p + delta` (`delta = new_len - range_len`) while
leaving every `p < rend` (inside or before the range) unchanged; in particular
for content `[1,2,3]` with a reference at `1`, replacing `[0,2)` with
`[8,8,8,8]` keeps the reference at `1` and the content becomes `[8,8,8,8,3]`. -/
theorem splice_adjust_spec (b : IndexRefBuf) (rstart rend : Nat)
    (repl : List Nat) (h1 : rstart ≤ rend) (h2 : rend ≤ b.buf.length)
    (h3 : rend - rstart ≤ repl.length) :
    (∃ b' removed,
      b.splice (.included rstart) (.excluded rend) repl = some (b', removed) ∧
      b'.references = b.references.map
        (fun p => if rend ≤ p then p + (repl.length - (rend - rstart)) else p)) ∧
    (((IndexRefBuf.from_vec [1, 2, 3]).create_index_ref 1).2.splice
        (.included 0) (.excluded 2) [8, 8, 8, 8] =
      some (⟨[8, 8, 8, 8, 3], [1]⟩, [1, 2])) := by
  refine ⟨⟨⟨b.buf.take rstart ++ repl ++ b.buf.drop rend,
      if 0 < repl.length - (rend - rstart) then
        b.references.map
          (fun r => if r ≥ rend then r + (repl.length - (rend - rstart)) else r)
      else b.references⟩,
      (b.buf.drop rstart).take (rend - rstart), ?_, ?_⟩, by decide⟩
  · simp only [IndexRefBuf.splice, RBound.startIndex, RBound.endIndex]
    rw [if_pos ⟨h1, h2⟩, if_pos h3]
  · show (if 0 < repl.length - (rend - rstart) then
        b.references.map
          (fun r => if r ≥ rend then r + (repl.length - (rend - rstart)) else r)
      else b.references) = _
    by_cases hinc : 0 < repl.length - (rend - rstart)
    · rw [if_pos hinc]
    · rw [if_neg hinc]
      have hz : repl.length - (rend - rstart) = 0 := by omega
      rw [hz]
      have hfun : (fun p => if rend ≤ p then p + 0 else p) = fun p : Nat => p := by
        funext p
        simp
      rw [hfun]
      simp

/-- Every stored position is strictly below the content length (the spec's
invariant I2). -/
def IndexRefBuf.ValidPositions (b : IndexRefBuf) : Prop :=
  ∀ p ∈ b.references, p < b.buf.length

instance (b : IndexRefBuf) : Decidable b.ValidPositions :=
  inferInstanceAs (Decidable (∀ p ∈ b.references, p < b.buf.length))

/-- C6 counterexample — on the buffer obtained by `create_index_ref 0` on an
empty buffer (an out-of-range stored position, which the claim explicitly
includes), `insert(length(), 7)` and `push(7)` give different stored
positions: `insert` shifts the reference from `0` to `1`, `push` does not. -/
theorem push_insert_counterexample :
    (IndexRefBuf.new.create_index_ref 0).2.insert
        (IndexRefBuf.new.create_index_ref 0).2.buf.length 7 ≠
      some ((IndexRefBuf.new.create_index_ref 0).2.push 7) := by decide

/-- C6 amended — when every stored position is in range (invariant I2, which
holds in any state where references were only created in bounds), `push(v)`
produces exactly the same content and stored positions as
`insert(length(), v)`; the unrestricted claim fails for out-of-range stored
positions, which `insert(length(), v)` shifts but `push` leaves alone. -/
theorem push_eq_insert_at_len (b : IndexRefBuf) (v : Nat)
    (h : b.ValidPositions) :
    b.insert b.buf.length v = some (b.push v) := by
  rw [IndexRefBuf.insert, if_pos (le_refl _)]
  have hbuf : b.buf.take b.buf.length ++ v :: b.buf.drop b.buf.length =
      b.buf ++ [v] := by
    rw [List.take_length, List.drop_length]
  have hrefs : b.references.map
      (fun r => if r ≥ b.buf.length then r + 1 else r) = b.references := by
    have hc : ∀ a ∈ b.references,
        (if a ≥ b.buf.length then a + 1 else a) = (fun x : Nat => x) a := by
      intro a ha
      have := h a ha
      simp only [ge_iff_le]
      rw [if_neg (by omega)]
    rw [List.map_congr_left hc, List.map_id']
  rw [hbuf, hrefs]
  rfl

/-- Witness for C6 amended: a buffer `[5]` with one reference at `0`. -/
theorem push_eq_insert_at_len_witness :
    ((IndexRefBuf.from_vec [5]).create_index_ref 0).2.ValidPositions ∧
    ((IndexRefBuf.from_vec [5]).create_index_ref 0).2.insert
        ((IndexRefBuf.from_vec [5]).create_index_ref 0).2.buf.length 7 =
      some (((IndexRefBuf.from_vec [5]).create_index_ref 0).2.push 7) :=
  ⟨by decide, push_eq_insert_at_len _ 7 (by decide)⟩

/-- C7 counterexample — `create_index_ref` stores the requested position
without validation, so after `create_index_ref 5` on an empty buffer a stored
position (`5`) is not in `[0, content.length)`: invariant I2 as claimed fails
after a `create_reference` mutation. -/
theorem position_validity_counterexample :
    5 ∈ (IndexRefBuf.new.create_index_ref 5).2.references ∧
    ¬ 5 < (IndexRefBuf.new.create_index_ref 5).2.buf.length := by decide

/-- C7 amended — position validity is an invariant preserved by every mutating
operation, provided `create_index_ref` is only called with an in-range
position: starting from a state where every stored position is in
`[0, content.length)`, each operation leaves every stored position in
`[0, content.length)` of the new state.  (Unrestricted `create_index_ref`
violates it, as the counterexample shows.) -/
theorem valid_positions_preserved (b : IndexRefBuf) (hv : b.ValidPositions) :
    (∀ v, (b.push v).ValidPositions) ∧
    (∀ xs, (b.extend_from_slice xs).ValidPositions) ∧
    (∀ xs, (b.append xs).1.ValidPositions) ∧
    (∀ i, i < b.buf.length → (b.create_index_ref i).2.ValidPositions) ∧
    (∀ i v b', b.insert i v = some b' → b'.ValidPositions) ∧
    (∀ i xs b', b.insert_slice i xs = some b' → b'.ValidPositions) ∧
    (∀ sb eb repl b' removed, b.splice sb eb repl = some (b', removed) →
      b'.ValidPositions) := by
  refine ⟨?_, ?_, ?_, ?_, ?_, ?_, ?_⟩
  · intro v p hp
    have := hv p hp
    simp only [IndexRefBuf.push, List.length_append]
    omega
  · intro xs p hp
    have := hv p hp
    simp only [IndexRefBuf.extend_from_slice, List.length_append]
    omega
  · intro xs p hp
    have := hv p hp
    simp only [IndexRefBuf.append, List.length_append]
    omega
  · intro i hi p hp
    simp only [IndexRefBuf.create_index_ref, List.mem_append,
      List.mem_singleton] at hp
    simp only [IndexRefBuf.create_index_ref]
    rcases hp with hp | hp
    · exact hv p hp
    · omega
  · intro i v b' h
    rw [IndexRefBuf.insert] at h
    by_cases hi : i ≤ b.buf.length
    · rw [if_pos hi] at h
      injection h with h
      subst h
      intro p hp
      simp only [List.mem_map] at hp
      obtain ⟨q, hq, hpq⟩ := hp
      have hql := hv q hq
      simp only [List.length_append, List.length_take, List.length_cons,
        List.length_drop]
      subst hpq
      by_cases hqi : q ≥ i
      · rw [if_pos hqi]
        omega
      · rw [if_neg hqi]
        omega
    · rw [if_neg hi] at h
      exact absurd h (by simp)
  · intro i xs b' h
    rw [IndexRefBuf.insert_slice] at h
    by_cases hi : i ≤ b.buf.length
    · rw [if_pos hi] at h
      injection h with h
      subst h
      intro p hp
      simp only [List.mem_map] at hp
      obtain ⟨q, hq, hpq⟩ := hp
      have hql := hv q hq
      simp only [List.length_append, List.length_take, List.length_drop]
      subst hpq
      by_cases hqi : q ≥ i
      · rw [if_pos hqi]
        omega
      · rw [if_neg hqi]
        omega
    · rw [if_neg hi] at h
      exact absurd h (by simp)
  · intro sb eb repl b' removed h
    rw [IndexRefBuf.splice] at h
    by_cases hb : sb.startIndex ≤ eb.endIndex b.buf.length ∧
        eb.endIndex b.buf.length ≤ b.buf.length
    · rw [if_pos hb] at h
      by_cases hl : eb.endIndex b.buf.length - sb.startIndex ≤ repl.length
      · rw [if_pos hl] at h
        injection h with h
        have hb' := congrArg Prod.fst h
        simp only at hb'
        subst hb'
        intro p hp
        simp only [List.length_append, List.length_take, List.length_drop]
        by_cases hinc : 0 < repl.length -
            (eb.endIndex b.buf.length - sb.startIndex)
        · rw [if_pos hinc] at hp
          simp only [List.mem_map] at hp
          obtain ⟨q, hq, hpq⟩ := hp
          have hql := hv q hq
          subst hpq
          by_cases hqe : q ≥ eb.endIndex b.buf.length
          · rw [if_pos hqe]
            omega
          · rw [if_neg hqe]
            omega
        · rw [if_neg hinc] at hp
          have hql := hv p hp
          omega
      · rw [if_neg hl] at h
        exact absurd h (by simp)
    · rw [if_neg hb] at h
      exact absurd h (by simp)

/-- Witness for C7 amended: buffer `[3,4]` with a reference at `1`. -/
theorem valid_positions_preserved_witness :
    ((IndexRefBuf.from_vec [3, 4]).create_index_ref 1).2.ValidPositions ∧
    (∀ i, i < ((IndexRefBuf.from_vec [3, 4]).create_index_ref 1).2.buf.length →
      (((IndexRefBuf.from_vec [3, 4]).create_index_ref 1).2.create_index_ref
        i).2.ValidPositions) :=
  ⟨by decide, (valid_positions_preserved _ (by decide)).2.2.2.1⟩

/-- C9 — reading the handle returned by `create_index_ref p` immediately
afterwards yields exactly `p`, and a later `create_index_ref` never changes
what a previously issued handle reads (slots are append-only). -/
theorem create_then_read (b : IndexRefBuf) (p : Nat) :
    (b.create_index_ref p).2.read_index_ref (b.create_index_ref p).1 = some p ∧
    (∀ r v, b.read_index_ref r = some v →
      (b.create_index_ref p).2.read_index_ref r = some v) := by
  constructor
  · show (b.references ++ [p])[b.references.length]? = some p
    exact List.getElem?_concat_length b.references p
  · intro r v h
    show (b.references ++ [p])[r.ref_index]? = some v
    have hr : r.ref_index < b.references.length := by
      have := List.getElem?_eq_some.mp h
      exact this.1
    rw [List.getElem?_append, if_pos hr]
    exact h

/-- Witness for C9: buffer `[1,2]` with a first reference at `0`, then a second
created at `7`. -/
theorem create_then_read_witness :
    (((IndexRefBuf.from_vec [1, 2]).create_index_ref 0).2.create_index_ref
        7).2.read_index_ref
      (((IndexRefBuf.from_vec [1, 2]).create_index_ref 0).2.create_index_ref
        7).1 = some 7 ∧
    ((IndexRefBuf.from_vec [1, 2]).create_index_ref 0).2.read_index_ref
        ⟨0⟩ = some 0 ∧
    (((IndexRefBuf.from_vec [1, 2]).create_index_ref 0).2.create_index_ref
        7).2.read_index_ref ⟨0⟩ = some 0 :=
  ⟨(create_then_read _ 7).1, by decide,
    (create_then_read ((IndexRefBuf.from_vec [1, 2]).create_index_ref 0).2
      7).2 ⟨0⟩ 0 (by decide)⟩

/-- Witness for C4: inserting `9` at index `1` of `[1,2,3]` with a reference at
position `1`. -/
theorem insert_spec_witness :
    (1 ≤ (IndexRefBuf.from_vec [1, 2, 3]).buf.length) ∧
    ∃ b', (IndexRefBuf.from_vec [1, 2, 3]).insert 1 9 = some b' ∧
      b'.buf.length = (IndexRefBuf.from_vec [1, 2, 3]).buf.length + 1 ∧
      b'.buf[1]? = some 9 ∧
      (∀ j, j < 1 → b'.buf[j]? = (IndexRefBuf.from_vec [1, 2, 3]).buf[j]?) ∧
      (∀ j, 1 ≤ j → b'.buf[j + 1]? = (IndexRefBuf.from_vec [1, 2, 3]).buf[j]?) ∧
      b'.references = (IndexRefBuf.from_vec [1, 2, 3]).references.map
        (fun p => if p ≥ 1 then p + 1 else p) ∧
      (∀ r : IndexRef, (IndexRefBuf.from_vec [1, 2, 3]).read_index_ref r = some 1 →
        b'.read_index_ref r = some 2) :=
  ⟨by decide, IndexRefBuf.insert_spec (IndexRefBuf.from_vec [1, 2, 3]) 1 9 (by decide)⟩

/-- Witness for C2: replacing range `[0,2)` of `[1,2,3]` with the single byte
`[9]` is rejected. -/
theorem splice_shrink_fatal_witness :
    ([9] : List Nat).length <
      RBound.endIndex (IndexRefBuf.from_vec [1, 2, 3]).buf.length
        (.excluded 2) - RBound.startIndex (.included 0) ∧
    (IndexRefBuf.from_vec [1, 2, 3]).splice (.included 0) (.excluded 2) [9] =
      none :=
  ⟨by decide, splice_shrink_fatal (IndexRefBuf.from_vec [1, 2, 3])
    (.included 0) (.excluded 2) [9] (by decide)⟩

/-- Witness for C3: the buffer `[1,2,3,4,5]` with a reference at `4`, replacing
`[0,2)` with `[9,9,9]`. -/
theorem splice_adjust_spec_witness :
    ((0 : Nat) ≤ 2 ∧ (2 : Nat) ≤ (IndexRefBuf.mk [1, 2, 3, 4, 5] [4]).buf.length ∧
      (2 : Nat) - 0 ≤ ([9, 9, 9] : List Nat).length) ∧
    ((∃ b' removed,
      (IndexRefBuf.mk [1, 2, 3, 4, 5] [4]).splice
        (.included 0) (.excluded 2) [9, 9, 9] = some (b', removed) ∧
      b'.references = (IndexRefBuf.mk [1, 2, 3, 4, 5] [4]).references.map
        (fun p => if 2 ≤ p then p + (([9, 9, 9] : List Nat).length - (2 - 0))
          else p)) ∧
    (((IndexRefBuf.from_vec [1, 2, 3]).create_index_ref 1).2.splice
        (.included 0) (.excluded 2) [8, 8, 8, 8] =
      some (⟨[8, 8, 8, 8, 3], [1]⟩, [1, 2]))) :=
  ⟨⟨by decide, by decide, by decide⟩,
    splice_adjust_spec (IndexRefBuf.mk [1, 2, 3, 4, 5] [4]) 0 2 [9, 9, 9]
      (by decide) (by decide) (by decide)⟩

/-- The public mutating operations of `IndexRefBuf`, for stating
whole-lifetime properties over arbitrary operation sequences. -/
inductive BufOp where
  | pushOp (v : Nat)
  | extendOp (xs : List Nat)
  | appendOp (xs : List Nat)
  | insertOp (i : Nat) (v : Nat)
  | insertSliceOp (i : Nat) (xs : List Nat)
  | spliceOp (sb eb : RBound) (repl : List Nat)
  | createOp (i : Nat)
deriving DecidableEq, Repr

/-- One step of the public interface; `none` models a panic. -/
def applyBufOp (b : IndexRefBuf) : BufOp → Option IndexRefBuf
  | .pushOp v => some (b.push v)
  | .extendOp xs => some (b.extend_from_slice xs)
  | .appendOp xs => some (b.append xs).1
  | .insertOp i v => b.insert i v
  | .insertSliceOp i xs => b.insert_slice i xs
  | .spliceOp sb eb repl => (b.splice sb eb repl).map Prod.fst
  | .createOp i => some (b.create_index_ref i).2

/-- Running a sequence of public operations; `none` as soon as one panics. -/
def runBufOps : IndexRefBuf → List BufOp → Option IndexRefBuf
  | b, [] => some b
  | b, op :: ops =>
    match applyBufOp b op with
    | some b' => runBufOps b' ops
    | none => none

/-- The net size increase of one operation, evaluated in the state where it is
applied (range bounds of a `splice` resolve against the current length). -/
def netIncrease (b : IndexRefBuf) : BufOp → Nat
  | .pushOp _ => 1
  | .extendOp xs => xs.length
  | .appendOp xs => xs.length
  | .insertOp _ _ => 1
  | .insertSliceOp _ xs => xs.length
  | .spliceOp sb eb repl =>
      repl.length - (eb.endIndex b.buf.length - sb.startIndex)
  | .createOp _ => 0

/-- Sum of the net size increases along a trace of operations. -/
def traceIncrease : IndexRefBuf → List BufOp → Nat
  | _, [] => 0
  | b, op :: ops =>
    netIncrease b op +
      match applyBufOp b op with
      | some b' => traceIncrease b' ops
      | none => 0

/-- A successful step changes the content length by exactly its net size
increase. -/
theorem applyBufOp_length (b : IndexRefBuf) (op : BufOp) (b' : IndexRefBuf)
    (h : applyBufOp b op = some b') :
    b'.buf.length = b.buf.length + netIncrease b op := by
  cases op with
  | pushOp v =>
    injection h with h
    subst h
    simp [IndexRefBuf.push, netIncrease]
  | extendOp xs =>
    injection h with h
    subst h
    simp [IndexRefBuf.extend_from_slice, netIncrease]
  | appendOp xs =>
    injection h with h
    subst h
    simp [IndexRefBuf.append, netIncrease]
  | insertOp i v =>
    obtain ⟨hi, hbuf, -⟩ := insert_some_inv b i v b' h
    rw [hbuf]
    simp only [List.length_append, List.length_take, List.length_cons,
      List.length_drop, netIncrease]
    omega
  | insertSliceOp i xs =>
    obtain ⟨hi, hbuf, -⟩ := insert_slice_some_inv b i xs b' h
    rw [hbuf]
    simp only [List.length_append, List.length_take, List.length_drop,
      netIncrease]
    omega
  | spliceOp sb eb repl =>
    simp only [applyBufOp, Option.map_eq_some'] at h
    obtain ⟨⟨b'', removed⟩, hsp, hfst⟩ := h
    obtain ⟨h1, h2, h3, hbuf, -⟩ := splice_some_inv b sb eb repl b'' removed hsp
    rw [← hfst]
    rw [hbuf]
    simp only [List.length_append, List.length_take, List.length_drop,
      netIncrease]
    omega
  | createOp i =>
    injection h with h
    subst h
    simp [IndexRefBuf.create_index_ref, netIncrease]

/-- C8 — growth-only: every public operation that completes normally leaves the
content length non-decreasing (and changed by exactly its net size increase),
and after any sequence of operations the length equals the initial length plus
the sum of the net size increases along the trace. -/
theorem monotonic_growth :
    (∀ b op b', applyBufOp b op = some b' →
      b.buf.length ≤ b'.buf.length ∧
      b'.buf.length = b.buf.length + netIncrease b op) ∧
    (∀ ops b b', runBufOps b ops = some b' →
      b.buf.length ≤ b'.buf.length ∧
      b'.buf.length = b.buf.length + traceIncrease b ops) := by
  constructor
  · intro b op b' h
    have := applyBufOp_length b op b' h
    omega
  · intro ops
    induction ops with
    | nil =>
      intro b b' h
      injection h with h
      subst h
      simp [traceIncrease]
    | cons op ops ih =>
      intro b b' h
      rw [runBufOps] at h
      cases happ : applyBufOp b op with
      | none => rw [happ] at h; exact absurd h (by simp)
      | some b1 =>
        rw [happ] at h
        have hstep := applyBufOp_length b op b1 happ
        have hrest := ih b1 b' h
        have htr : traceIncrease b (op :: ops) =
            netIncrease b op + traceIncrease b1 ops := by
          rw [traceIncrease, happ]
        omega

/-- Witness for C8: pushing `1`, inserting `2` at `0`, then growing `[0,1)`
into `[7,7]` on an initially empty buffer. -/
theorem monotonic_growth_witness :
    (applyBufOp IndexRefBuf.new (.pushOp 1) = some (IndexRefBuf.new.push 1) ∧
      IndexRefBuf.new.buf.length ≤ (IndexRefBuf.new.push 1).buf.length) ∧
    (runBufOps IndexRefBuf.new
        [.pushOp 1, .insertOp 0 2, .spliceOp (.included 0) (.excluded 1) [7, 7]] =
      some (IndexRefBuf.mk [7, 7, 1] []) ∧
      (IndexRefBuf.mk [7, 7, 1] []).buf.length =
        IndexRefBuf.new.buf.length + traceIncrease IndexRefBuf.new
          [.pushOp 1, .insertOp 0 2, .spliceOp (.included 0) (.excluded 1) [7, 7]]) :=
  ⟨⟨by decide, ((monotonic_growth.1 IndexRefBuf.new (.pushOp 1)
      (IndexRefBuf.new.push 1)) (by decide)).1⟩,
    by decide,
    ((monotonic_growth.2
      [.pushOp 1, .insertOp 0 2, .spliceOp (.included 0) (.excluded 1) [7, 7]]
      IndexRefBuf.new (IndexRefBuf.mk [7, 7, 1] [])) (by decide)).2⟩

/-- How much one public operation grows the reference table: one entry for
`create_index_ref`, none for anything else. -/
def refDelta : BufOp → Nat
  | .createOp _ => 1
  | _ => 0

/-- C10 — frame property of the reference table: every public operation other
than `create_index_ref` leaves the number of table entries unchanged, and
`create_index_ref` grows it by exactly one; no operation removes an entry
(the non-mutating reads `read_index_ref`, `len` and `is_empty` do not produce
a new buffer at all). -/
theorem references_frame (b : IndexRefBuf) (op : BufOp) (b' : IndexRefBuf)
    (h : applyBufOp b op = some b') :
    b'.references.length = b.references.length + refDelta op := by
  cases op with
  | pushOp v =>
    injection h with h
    subst h
    rfl
  | extendOp xs =>
    injection h with h
    subst h
    rfl
  | appendOp xs =>
    injection h with h
    subst h
    rfl
  | insertOp i v =>
    obtain ⟨-, -, hrefs⟩ := insert_some_inv b i v b' h
    rw [hrefs]
    simp only [List.length_map]
    rfl
  | insertSliceOp i xs =>
    obtain ⟨-, -, hrefs⟩ := insert_slice_some_inv b i xs b' h
    rw [hrefs]
    simp only [List.length_map]
    rfl
  | spliceOp sb eb repl =>
    simp only [applyBufOp, Option.map_eq_some'] at h
    obtain ⟨⟨b'', removed⟩, hsp, hfst⟩ := h
    obtain ⟨-, -, -, -, hrefs⟩ := splice_some_inv b sb eb repl b'' removed hsp
    rw [← hfst, hrefs]
    simp only [List.length_map]
    rfl
  | createOp i =>
    injection h with h
    subst h
    simp only [IndexRefBuf.create_index_ref, List.length_append,
      List.length_singleton]
    rfl

/-- Witness for C10: a splice step and a reference-creation step on a concrete
buffer. -/
theorem references_frame_witness :
    (applyBufOp (IndexRefBuf.mk [1, 2] [0]) (.createOp 1) =
      some (IndexRefBuf.mk [1, 2] [0, 1]) ∧
      (IndexRefBuf.mk [1, 2] [0, 1]).references.length =
        (IndexRefBuf.mk [1, 2] [0]).references.length + 1) ∧
    (applyBufOp (IndexRefBuf.mk [1, 2] [0])
        (.spliceOp (.included 1) (.excluded 2) [5, 6]) =
      some (IndexRefBuf.mk [1, 5, 6] [0]) ∧
      (IndexRefBuf.mk [1, 5, 6] [0]).references.length =
        (IndexRefBuf.mk [1, 2] [0]).references.length + 0) :=
  ⟨⟨by decide, references_frame (IndexRefBuf.mk [1, 2] [0]) (.createOp 1)
      (IndexRefBuf.mk [1, 2] [0, 1]) (by decide)⟩,
    by decide, references_frame (IndexRefBuf.mk [1, 2] [0])
      (.spliceOp (.included 1) (.excluded 2) [5, 6])
      (IndexRefBuf.mk [1, 5, 6] [0]) (by decide)⟩

/-- Taking the first `i + 1` elements after inserting `x` at `i` gives the
original prefix followed by `x`. -/
theorem take_insert_shape (l : List Nat) (i x : Nat) (h : i ≤ l.length) :
    (l.take i ++ x :: l.drop i).take (i + 1) = l.take i ++ [x] := by
  rw [List.take_append_eq_append_take, List.length_take_of_le h,
    List.take_take]
  have hmin : min (i + 1) i = i := by omega
  have hone : i + 1 - i = 1 := by omega
  rw [hmin, hone]
  rfl

/-- Dropping the first `i + 1` elements after inserting `x` at `i` gives the
original suffix. -/
theorem drop_insert_shape (l : List Nat) (i x : Nat) (h : i ≤ l.length) :
    (l.take i ++ x :: l.drop i).drop (i + 1) = l.drop i := by
  rw [List.drop_append_eq_append_drop, List.length_take_of_le h]
  have h1 : (l.take i).drop (i + 1) = [] :=
    List.drop_eq_nil_of_le (by rw [List.length_take_of_le h]; omega)
  have hone : i + 1 - i = 1 := by omega
  rw [h1, hone]
  rfl

/-- Shifting positions `≥ i` by one and then positions `≥ i + 1` by `n` is the
same as shifting positions `≥ i` by `n + 1`. -/
theorem shift_compose (refs : List Nat) (i n : Nat) :
    (refs.map (fun r => if r ≥ i then r + 1 else r)).map
      (fun r => if r ≥ i + 1 then r + n else r) =
    refs.map (fun r => if r ≥ i then r + (n + 1) else r) := by
  rw [List.map_map]
  apply List.map_congr_left
  intro a _
  simp only [Function.comp]
  by_cases hai : a ≥ i
  · rw [if_pos hai, if_pos (by omega), if_pos hai]
    omega
  · rw [if_neg hai, if_neg (by omega), if_neg hai]

/-- Inserting the slice `x :: xs` at `i` equals inserting `x` at `i` and then
the slice `xs` at `i + 1`. -/
theorem insert_slice_cons (b : IndexRefBuf) (i x : Nat) (xs : List Nat)
    (h : i ≤ b.buf.length) (b1 : IndexRefBuf) (hb1 : b.insert i x = some b1) :
    b.insert_slice i (x :: xs) = b1.insert_slice (i + 1) xs := by
  obtain ⟨-, hbuf, hrefs⟩ := insert_some_inv b i x b1 hb1
  have hlen1 : b1.buf.length = b.buf.length + 1 := by
    rw [hbuf]
    simp only [List.length_append, List.length_take, List.length_cons,
      List.length_drop]
    omega
  rw [IndexRefBuf.insert_slice, IndexRefBuf.insert_slice, if_pos h,
    if_pos (by omega)]
  have hbufeq : b.buf.take i ++ (x :: xs) ++ b.buf.drop i =
      b1.buf.take (i + 1) ++ xs ++ b1.buf.drop (i + 1) := by
    rw [hbuf, take_insert_shape b.buf i x h, drop_insert_shape b.buf i x h]
    simp [List.append_assoc]
  have hrefseq : b.references.map
        (fun r => if r ≥ i then r + (x :: xs).length else r) =
      b1.references.map (fun r => if r ≥ i + 1 then r + xs.length else r) := by
    rw [hrefs, shift_compose]
    simp only [List.length_cons]
  rw [hbufeq, hrefseq]

/-- Modelled from the spec: inserting each element of `elements` one at a time
at `index`, `index + 1`, ... — the one-at-a-time semantics that the spec says
`insert_slice` is equivalent to. -/
def insertSeq : IndexRefBuf → Nat → List Nat → Option IndexRefBuf
  | b, _, [] => some b
  | b, i, x :: xs =>
    match b.insert i x with
    | some b' => insertSeq b' (i + 1) xs
    | none => none

/-- C5 — for every buffer state (any content and any stored positions,
including out-of-range ones) and every `index ≤ length()`,
`insert_slice(index, elements)` produces exactly the same content and stored
positions as inserting the elements one at a time at `index`, `index+1`, ... -/
theorem insert_slice_eq_seq (b : IndexRefBuf) (index : Nat)
    (elements : List Nat) (h : index ≤ b.buf.length) :
    b.insert_slice index elements = insertSeq b index elements := by
  induction elements generalizing b index with
  | nil =>
    rw [insertSeq, IndexRefBuf.insert_slice, if_pos h]
    simp only [List.length_nil, List.append_nil, List.take_append_drop,
      map_shift_zero]
  | cons x xs ih =>
    have hb1 : b.insert index x =
        some ⟨b.buf.take index ++ x :: b.buf.drop index,
          b.references.map (fun r => if r ≥ index then r + 1 else r)⟩ := by
      rw [IndexRefBuf.insert, if_pos h]
    rw [insertSeq, hb1, insert_slice_cons b index x xs h _ hb1]
    exact ih _ (index + 1)
      (by
        show index + 1 ≤ (b.buf.take index ++ x :: b.buf.drop index).length
        simp only [List.length_append, List.length_take, List.length_cons,
          List.length_drop]
        omega)

/-- Witness for C5: inserting `[7,8]` at index `1` of `[1,2,3]` with stored
positions `[0,2,9]` (the last one out of range). -/
theorem insert_slice_eq_seq_witness :
    (1 ≤ (IndexRefBuf.mk [1, 2, 3] [0, 2, 9]).buf.length) ∧
    (IndexRefBuf.mk [1, 2, 3] [0, 2, 9]).insert_slice 1 [7, 8] =
      insertSeq (IndexRefBuf.mk [1, 2, 3] [0, 2, 9]) 1 [7, 8] :=
  ⟨by decide,
    insert_slice_eq_seq (IndexRefBuf.mk [1, 2, 3] [0, 2, 9]) 1 [7, 8]
      (by decide)⟩

/-- The growth operations of the stability property: single-element insertion,
slice insertion, and range replacement with a half-open range. -/
inductive GrowOp where
  | insertOne (index : Nat) (element : Nat)
  | insertSliceOp (index : Nat) (elements : List Nat)
  | spliceOp (rstart rend : Nat) (replace_with : List Nat)
deriving DecidableEq, Repr

/-- One growth step; `none` models a panic (out-of-bounds or shrinking). -/
def applyGrowOp (b : IndexRefBuf) : GrowOp → Option IndexRefBuf
  | .insertOne i v => b.insert i v
  | .insertSliceOp i xs => b.insert_slice i xs
  | .spliceOp s e repl =>
      (b.splice (.included s) (.excluded e) repl).map Prod.fst

/-- Running a sequence of growth operations. -/
def runGrowOps : IndexRefBuf → List GrowOp → Option IndexRefBuf
  | b, [] => some b
  | b, op :: ops =>
    match applyGrowOp b op with
    | some b' => runGrowOps b' ops
    | none => none

/-- The operation's affected range does not contain the current resolved
position of the reference in slot `hIdx`.  Only a `splice` has a non-empty
affected range `[rstart, rend)`; insertions never overwrite the tracked
element, so they impose no constraint. -/
def opAvoidsRef (b : IndexRefBuf) (hIdx : Nat) : GrowOp → Bool
  | .spliceOp s e _ =>
      match b.references[hIdx]? with
      | some p => decide (p < s) || decide (e ≤ p)
      | none => true
  | _ => true

/-- Along the whole trace, no operation's affected range contains the then
current resolved position of the reference in slot `hIdx`. -/
def traceAvoidsRef (hIdx : Nat) : IndexRefBuf → List GrowOp → Bool
  | _, [] => true
  | b, op :: ops =>
    opAvoidsRef b hIdx op &&
      match applyGrowOp b op with
      | some b' => traceAvoidsRef hIdx b' ops
      | none => true

/-- One safe growth step keeps the reference in slot `hIdx` pointing at a
position holding the tracked value. -/
theorem growStep_tracked (b b' : IndexRefBuf) (op : GrowOp) (hIdx p w : Nat)
    (h : applyGrowOp b op = some b')
    (havoid : opAvoidsRef b hIdx op = true)
    (href : b.references[hIdx]? = some p)
    (hval : b.buf[p]? = some w) :
    ∃ p', b'.references[hIdx]? = some p' ∧ b'.buf[p']? = some w := by
  cases op with
  | insertOne i v =>
    obtain ⟨hi, hbuf, hrefs⟩ := insert_some_inv b i v b' h
    refine ⟨if p ≥ i then p + 1 else p, ?_, ?_⟩
    · rw [hrefs, List.getElem?_map, href]
      rfl
    · have hcons : b.buf.take i ++ v :: b.buf.drop i =
          b.buf.take i ++ [v] ++ b.buf.drop i := by
        rw [List.append_assoc, List.singleton_append]
      rw [hbuf, hcons]
      by_cases hpi : p ≥ i
      · rw [if_pos hpi]
        have hsh := getElem?_splice_shape_right b.buf [v] i i p hi hpi
        have harith : i + ([v] : List Nat).length + (p - i) = p + 1 := by
          simp only [List.length_cons, List.length_nil]
          omega
        rw [harith] at hsh
        rw [hsh]
        exact hval
      · rw [if_neg hpi]
        rw [getElem?_splice_shape_left b.buf [v] i i p (by omega) hi]
        exact hval
  | insertSliceOp i xs =>
    obtain ⟨hi, hbuf, hrefs⟩ := insert_slice_some_inv b i xs b' h
    refine ⟨if p ≥ i then p + xs.length else p, ?_, ?_⟩
    · rw [hrefs, List.getElem?_map, href]
      rfl
    · rw [hbuf]
      by_cases hpi : p ≥ i
      · rw [if_pos hpi]
        have hsh := getElem?_splice_shape_right b.buf xs i i p hi hpi
        have harith : i + xs.length + (p - i) = p + xs.length := by omega
        rw [harith] at hsh
        rw [hsh]
        exact hval
      · rw [if_neg hpi]
        rw [getElem?_splice_shape_left b.buf xs i i p (by omega) hi]
        exact hval
  | spliceOp s e repl =>
    simp only [applyGrowOp, Option.map_eq_some'] at h
    obtain ⟨⟨b'', removed⟩, hsp, hfst⟩ := h
    obtain ⟨h1, h2, h3, hbuf, hrefs⟩ :=
      splice_some_inv b (.included s) (.excluded e) repl b'' removed hsp
    simp only [RBound.startIndex, RBound.endIndex] at h1 h2 h3 hbuf hrefs
    simp only [opAvoidsRef, href] at havoid
    have hpos : p < s ∨ e ≤ p := by
      rcases Bool.or_eq_true_iff.mp havoid with hc | hc
      · exact Or.inl (of_decide_eq_true hc)
      · exact Or.inr (of_decide_eq_true hc)
    rw [← hfst]
    refine ⟨if p ≥ e then p + (repl.length - (e - s)) else p, ?_, ?_⟩
    · rw [hrefs, List.getElem?_map, href]
      rfl
    · rw [hbuf]
      by_cases hpe : p ≥ e
      · rw [if_pos hpe]
        have hsh := getElem?_splice_shape_right b.buf repl s e p (by omega) hpe
        have harith : s + repl.length + (p - e) =
            p + (repl.length - (e - s)) := by omega
        rw [harith] at hsh
        rw [hsh]
        exact hval
      · rw [if_neg hpe]
        have hps : p < s := by
          rcases hpos with hc | hc
          · exact hc
          · exact absurd hc hpe
        rw [getElem?_splice_shape_left b.buf repl s e p hps (by omega)]
        exact hval

/-- C1 — reference stability under growth: for any buffer, any handle whose
slot resolves to a position `k` holding value `v`, and any finite sequence of
`insert` / `insert_slice` / growth-only `splice` operations that all complete
and whose affected ranges never contain the then current resolved position of
the handle, resolving the handle afterwards yields a position `k'` with
`content[k'] = v`. -/
theorem reference_stability (ops : List GrowOp) (b b' : IndexRefBuf)
    (r : IndexRef) (k v : Nat)
    (href : b.read_index_ref r = some k)
    (hval : b.buf[k]? = some v)
    (havoid : traceAvoidsRef r.ref_index b ops = true)
    (hrun : runGrowOps b ops = some b') :
    ∃ k', b'.read_index_ref r = some k' ∧ b'.buf[k']? = some v := by
  induction ops generalizing b k with
  | nil =>
    rw [runGrowOps] at hrun
    injection hrun with hrun
    subst hrun
    exact ⟨k, href, hval⟩
  | cons op ops ih =>
    rw [runGrowOps] at hrun
    rw [traceAvoidsRef] at havoid
    cases happ : applyGrowOp b op with
    | none =>
      rw [happ] at hrun
      exact absurd hrun (by simp)
    | some b1 =>
      rw [happ] at hrun havoid
      obtain ⟨hop, htr⟩ := Bool.and_eq_true_iff.mp havoid
      obtain ⟨k1, hk1, hv1⟩ :=
        growStep_tracked b b1 op r.ref_index k v happ hop href hval
      exact ih b1 k1 hk1 hv1 htr hrun

/-- Witness for C1: content `[0,0,1,0]` with a reference at `2` (value `1`);
insert a byte at `0`, insert `[0,0]` at `1`, then grow `[0,2)` into `[9,9,9]`;
the reference resolves to `6` and the content there is still `1`. -/
theorem reference_stability_witness :
    ((IndexRefBuf.mk [0, 0, 1, 0] [2]).read_index_ref ⟨0⟩ = some 2 ∧
     (IndexRefBuf.mk [0, 0, 1, 0] [2]).buf[2]? = some 1 ∧
     traceAvoidsRef 0 (IndexRefBuf.mk [0, 0, 1, 0] [2])
       [.insertOne 0 0, .insertSliceOp 1 [0, 0], .spliceOp 0 2 [9, 9, 9]] =
       true ∧
     runGrowOps (IndexRefBuf.mk [0, 0, 1, 0] [2])
       [.insertOne 0 0, .insertSliceOp 1 [0, 0], .spliceOp 0 2 [9, 9, 9]] =
       some (IndexRefBuf.mk [9, 9, 9, 0, 0, 0, 1, 0] [6])) ∧
    (∃ k', (IndexRefBuf.mk [9, 9, 9, 0, 0, 0, 1, 0] [6]).read_index_ref ⟨0⟩ =
        some k' ∧
      (IndexRefBuf.mk [9, 9, 9, 0, 0, 0, 1, 0] [6]).buf[k']? = some 1) :=
  ⟨⟨by decide, by decide, by decide, by decide⟩,
    reference_stability
      [.insertOne 0 0, .insertSliceOp 1 [0, 0], .spliceOp 0 2 [9, 9, 9]]
      (IndexRefBuf.mk [0, 0, 1, 0] [2])
      (IndexRefBuf.mk [9, 9, 9, 0, 0, 0, 1, 0] [6]) ⟨0⟩ 2 1
      (by decide) (by decide) (by decide) (by decide)⟩
